import Mathlib

/-!
Shallow embedding of the obsidianmd section engine (src/section.rs, src/note.rs,
src/markdown.rs).

The buffer (an xi-rope `Rope` in the source) is modelled as a `List Char`;
offsets are codepoint indices (the source uses byte offsets but moves only on
codepoint boundaries, so codepoint indices are the faithful granularity).

The source locates headings with the regex `^#{(w+1),} name$` (case-insensitive,
multi-line) and section terminators with `^#{1,w} .*$`.  For heading names free
of regex metacharacters (the spec declares behaviour for other names
unspecified), these regexes match a line exactly when it decomposes as a run of
`#` markers, a space, and the (case-folded) name — which is how they are
embedded here.  Case folding is modelled with `Char.toLower`, which agrees with
the source's folding on the ASCII names used throughout.

`Section.trim_end` can construct an inverted interval `end..end-1` and hand it
to the rope edit; xi-rope's `Interval::new` asserts `start <= end`, so this is
modelled as an aborted computation (`none`).  Likewise `self.interval.end - 1`
underflows when `end = 0`.
-/

namespace Obsidian

/-- Half-open interval `[start, stop)` of buffer offsets (xi-rope `Interval`;
the source field `end` is a Lean keyword, rendered here as `stop`). -/
structure Interval where
  start : Nat
  stop : Nat
  deriving DecidableEq, Repr

/-- A `Section<'a>`: a heading level (`weight`) plus a view interval into the
shared buffer.  The rope reference is passed explicitly to each operation. -/
structure Section where
  weight : Nat
  interval : Interval
  deriving DecidableEq, Repr

/-- The root section: level 0 over the whole buffer
(`Section::new(0, .., &rope)`; `(..).into_interval(len)` is `[0, len)`). -/
def rootSection (buf : List Char) : Section :=
  ⟨0, ⟨0, buf.length⟩⟩

/-- The portion of `l` up to (excluding) the first line break: the line
starting at the head of `l`. -/
def lineOf (l : List Char) : List Char :=
  l.takeWhile (fun c => c != '\n')

/-- The line beginning at offset `p` of the buffer. -/
def lineAt (buf : List Char) (p : Nat) : List Char :=
  lineOf (buf.drop p)

/-- Positions where the regex anchor `^` matches (multi-line): the
buffer start, or the position immediately after a line break. -/
def LineStart (buf : List Char) (p : Nat) : Prop :=
  p = 0 ∨ (0 < p ∧ buf[p - 1]? = some '\n')

instance (buf : List Char) (p : Nat) : Decidable (LineStart buf p) := by
  unfold LineStart; infer_instance

/-- Length of the leading run of `#` markers. -/
def leadingHashes : List Char → Nat
  | [] => 0
  | c :: cs => if c = '#' then leadingHashes cs + 1 else 0

/-- Case folding used for heading-name comparison. -/
def lowerList (l : List Char) : List Char :=
  l.map Char.toLower

/-- Whether a line matches the first search regex `^#{(weight+1),} name$`
(case-insensitive): at least `weight + 1` markers, a space, then exactly the
target name. -/
def matches_heading (weight : Nat) (name : List Char) (line : List Char) : Bool :=
  let k := leadingHashes line
  match line.drop k with
  | c :: rest =>
    (c == ' ') && decide (weight + 1 ≤ k) && (lowerList rest == lowerList name)
  | [] => false

/-- Whether a line matches the terminator regex `^#{1,weight} .*$`: a heading
whose marker count is between 1 and `weight` inclusive. -/
def is_terminator (weight : Nat) (line : List Char) : Bool :=
  let k := leadingHashes line
  match line.drop k with
  | c :: _ => (c == ' ') && decide (1 ≤ k) && decide (k ≤ weight)
  | [] => false

/-- Model of `xi_rope::find::find` over the suffix `rest` of the buffer beginning at
offset `off` (a line start): offset of the first line satisfying `pred`, line
by line.  `fuel` only forces termination; any `fuel > rest.length` is exact. -/
def scanLinesF (pred : List Char → Bool) : Nat → List Char → Nat → Option Nat
  | 0, _, _ => none
  | fuel + 1, rest, off =>
    let line := lineOf rest
    if pred line then some off
    else
      match rest.drop line.length with
      | [] => none
      | _ :: rest2 => scanLinesF pred fuel rest2 (off + line.length + 1)

/-- Embedding of `Section::find_subsection` (src/section.rs).  Searches the whole rope from
offset 0 (`Cursor::new(&rope, 0)`, `rope.lines_raw(..)`) for the first line
matching `^#{(weight+1),} name$`; skips the line break after the match
(`cursor.next_codepoint()?` — failing, hence `none`, when the match ends the
buffer); reads the marker count of the matched line
(`section_header.split(' ').next().unwrap().len()`); then searches from the
body start for the first line matching `^#{1,count} .*$`, defaulting to
`rope.len()` (`unwrap_or`). -/
def find_subsection (buf : List Char) (weight : Nat) (name : List Char) :
    Option (Interval × Nat) :=
  match scanLinesF (matches_heading weight name) (buf.length + 1) buf 0 with
  | none => none
  | some p =>
    let line := lineAt buf p
    let hEnd := p + line.length
    if buf.length ≤ hEnd then none
    else
      let bodyBegin := hEnd + 1
      let w2 := leadingHashes line
      let stop :=
        (scanLinesF (is_terminator w2) (buf.length + 1) (buf.drop bodyBegin)
          bodyBegin).getD buf.length
      some (⟨bodyBegin, stop⟩, w2)

/-- Embedding of `Section::subsection`: wraps `find_subsection` into a child `Section`. -/
def Section.subsection (s : Section) (buf : List Char) (name : List Char) :
    Option Section :=
  match find_subsection buf s.weight name with
  | none => none
  | some (iv, w) => some ⟨w, iv⟩

/-- Embedding of `Section::body`: `rope.slice(interval)`. -/
def Section.body (s : Section) (buf : List Char) : List Char :=
  (buf.drop s.interval.start).take (s.interval.stop - s.interval.start)

/-- Trait `ToMarkdown` (src/markdown.rs): a value renders itself to a markdown
fragment. -/
class ToMarkdown (α : Type) where
  to_markdown : α → List Char

/-- The `String` / `&str` impls: primitive text renders as itself unchanged
(`self.clone()` / `String::from(*self)`). -/
instance listToMarkdown : ToMarkdown (List Char) :=
  ⟨fun s => s⟩

/-- Struct `CheckListItem`: a markdown checklist item. -/
structure CheckListItem where
  checked : Bool
  text : List Char

instance : ToMarkdown CheckListItem :=
  ⟨fun it =>
    if it.checked then ("- [x] ").toList ++ it.text ++ ['\n']
    else ("- [ ] ").toList ++ it.text ++ ['\n']⟩

/-- Embedding of `Section::append`: renders the payload, inserts it at `interval.end`
(`rope.edit(end..end, diff)`), and extends `interval.end` by the rendered
length. -/
def Section.append {α : Type} [ToMarkdown α] (s : Section) (buf : List Char)
    (data : α) : List Char × Section :=
  let diff := ToMarkdown.to_markdown data
  (buf.take s.interval.stop ++ diff ++ buf.drop s.interval.stop,
    ⟨s.weight, ⟨s.interval.start, s.interval.stop + diff.length⟩⟩)

/-- Unicode `White_Space` property, as used by Rust's `char::is_whitespace`. -/
def rustIsWhitespace (c : Char) : Bool :=
  c = ' ' || c = '\t' || c = '\n' ||
  c.toNat = 0x0B || c.toNat = 0x0C || c = '\r' ||
  c.toNat = 0x85 || c.toNat = 0xA0 || c.toNat = 0x1680 ||
  (0x2000 ≤ c.toNat && c.toNat ≤ 0x200A) ||
  c.toNat = 0x2028 || c.toNat = 0x2029 || c.toNat = 0x202F ||
  c.toNat = 0x205F || c.toNat = 0x3000

/-- The cursor walk of `Section::trim_end`: starting at `pos`, step back with
`prev_codepoint` while the codepoint is whitespace (breaking on the first
non-whitespace codepoint), then advance once with `next_codepoint`; returns the
final cursor position.  When the walk reaches offset 0 (`prev_codepoint`
returns `None`), `next_codepoint` still advances past the first codepoint of a
non-empty buffer. -/
def scanBack (buf : List Char) : Nat → Nat
  | 0 => if buf.isEmpty then 0 else 1
  | p + 1 =>
    match buf[p]? with
    | some c => if rustIsWhitespace c then scanBack buf p else p + 1
    | none => scanBack buf p

/-- Embedding of `Section::trim_end`: deletes `[scanBack buf end, end - 1)` from the buffer
and sets `interval.end` to the interval's start.  `none` models an aborted
call: `interval.end - 1` underflows when `end = 0`, and xi-rope's
`Interval::new` asserts `start <= end` when the computed removal interval is
inverted. -/
def Section.trim_end (s : Section) (buf : List Char) :
    Option (List Char × Section) :=
  if s.interval.stop = 0 then none
  else
    let istart := scanBack buf s.interval.stop
    let iend := s.interval.stop - 1
    if istart ≤ iend then
      some (buf.take istart ++ buf.drop iend,
        ⟨s.weight, ⟨s.interval.start, istart⟩⟩)
    else none

/-- Errors `NoteError` (src/note.rs); only the variant reachable from the embedded
operations is modelled (`Open`/`Save` concern file I/O, out of scope). -/
inductive NoteError where
  | sectionNotFound (sect : List Char)
  deriving DecidableEq, Repr

/-- Embedding of `Note::section`: resolve the root (no name) or a named subsection of the
root. -/
def noteSection (buf : List Char) (name : Option (List Char)) : Option Section :=
  match name with
  | some n => (rootSection buf).subsection buf n
  | none => some (rootSection buf)

/-- Embedding of `Note::body`: promote a failed resolution to `SectionNotFound` carrying the
requested name (`section.unwrap()` — only reachable when a name was given). -/
def Note.body (buf : List Char) (name : Option (List Char)) :
    Except NoteError (List Char) :=
  match noteSection buf name with
  | some s => Except.ok (s.body buf)
  | none => Except.error (NoteError.sectionNotFound (name.getD []))

/-- Embedding of `Note::append`: the pair is (result, buffer after the call) — the Rust
method mutates the rope in place, so the error path leaves the buffer as is. -/
def Note.append {α : Type} [ToMarkdown α] (buf : List Char) (data : α)
    (name : Option (List Char)) : Except NoteError Unit × List Char :=
  match noteSection buf name with
  | some s => (Except.ok (), (s.append buf data).1)
  | none => (Except.error (NoteError.sectionNotFound (name.getD [])), buf)

/-- Embedding of `Note::trim_end`: as `Note.append`; the outer `Option` is the abort model
inherited from `Section.trim_end`. -/
def Note.trim_end (buf : List Char) (name : Option (List Char)) :
    Option (Except NoteError Unit × List Char) :=
  match noteSection buf name with
  | some s =>
    match s.trim_end buf with
    | some (buf2, _) => some (Except.ok (), buf2)
    | none => none
  | none => some (Except.error (NoteError.sectionNotFound (name.getD [])), buf)

/- Concrete documents used by the scenario claims. -/

/-- The §8 scenario document. -/
def specDoc : List Char := ("# A\n\n## B\ntext b\n\n## C\ntext c\n").toList

/-- A note whose section `c` has body `"\ntext c\n\n"`. -/
def doc4 : List Char := ("## C\n\ntext c\n\n").toList

/-- A note whose section `c` has an all-whitespace body. -/
def doc6 : List Char := ("## C\n\n\n").toList

/-- Nested-scope document: a `### T` heading inside `## X`, and a later `## Y`
scope that contains no `T` heading. -/
def doc1 : List Char := ("## X\n### T\nb1\n## Y\nb2\n").toList

/-- A document whose only heading is at level 4. -/
def docW : List Char := ("#### Deep\nbody\n").toList

/-- Decidable check: no line start in `[lo, hi]` carries a heading matching
the pattern for weight `w` and the given name. -/
def noQualifyingIn (buf : List Char) (w : Nat) (name : List Char)
    (lo hi : Nat) : Bool :=
  (List.range (hi + 1)).all fun q =>
    !(decide (lo ≤ q) && decide (LineStart buf q) &&
      matches_heading w name (lineAt buf q))

deriving instance DecidableEq for Except

/-! ### Generic helper lemmas -/

theorem takeWhile_length_le {p : Char → Bool} :
    ∀ (l : List Char), (l.takeWhile p).length ≤ l.length := by
  intro l
  induction l with
  | nil => simp
  | cons a t ih =>
    rw [List.takeWhile_cons]
    cases hp : p a
    · simp
    · simpa using ih

theorem takeWhile_elem {p : Char → Bool} :
    ∀ (l : List Char) (i : Nat), i < (l.takeWhile p).length →
      ∃ c, l[i]? = some c ∧ p c = true := by
  intro l
  induction l with
  | nil => intro i hi; simp at hi
  | cons a t ih =>
    intro i hi
    rw [List.takeWhile_cons] at hi
    cases hp : p a with
    | false => rw [hp] at hi; simp at hi
    | true =>
      rw [hp] at hi
      simp only [if_true, List.length_cons] at hi
      cases i with
      | zero => exact ⟨a, by simp, hp⟩
      | succ n =>
        obtain ⟨c, hc, hpc⟩ := ih n (by omega)
        exact ⟨c, by simpa using hc, hpc⟩

theorem takeWhile_stop {p : Char → Bool} :
    ∀ (l : List Char), (l.takeWhile p).length < l.length →
      ∃ c, l[(l.takeWhile p).length]? = some c ∧ p c = false := by
  intro l
  induction l with
  | nil => intro h; simp at h
  | cons a t ih =>
    intro h
    rw [List.takeWhile_cons] at h ⊢
    cases hp : p a with
    | false =>
      refine ⟨a, ?_, hp⟩
      simp
    | true =>
      rw [hp] at h
      simp only [if_true, List.length_cons] at h ⊢
      obtain ⟨c, hc, hpc⟩ := ih (by omega)
      refine ⟨c, ?_, hpc⟩
      simpa using hc

theorem LineStart_le {buf : List Char} {q : Nat} (h : LineStart buf q) :
    q ≤ buf.length := by
  rcases h with h | ⟨hq, h⟩
  · omega
  · rcases List.getElem?_eq_some_iff.mp h with ⟨hlt, _⟩
    omega

theorem LineStart_zero (buf : List Char) : LineStart buf 0 :=
  Or.inl rfl

theorem lineAt_length_le (buf : List Char) (p : Nat) :
    (lineAt buf p).length ≤ buf.length - p := by
  have := @takeWhile_length_le (fun c => c != '\n') (buf.drop p)
  simpa [lineAt, lineOf] using this

/-- A character inside the line starting at `p` is not a line break. -/
theorem lineAt_inner {buf : List Char} {p i : Nat}
    (hi : i < (lineAt buf p).length) :
    ∃ c, buf[p + i]? = some c ∧ c ≠ '\n' := by
  obtain ⟨c, hc, hpc⟩ := takeWhile_elem (buf.drop p) i hi
  refine ⟨c, ?_, by simpa using hpc⟩
  rw [← List.getElem?_drop]
  exact hc

/-- The character just past the line starting at `p` (when the line does not
reach the buffer end) is a line break. -/
theorem lineAt_stop {buf : List Char} {p : Nat}
    (h : p + (lineAt buf p).length < buf.length) :
    buf[p + (lineAt buf p).length]? = some '\n' := by
  have hlt : (lineAt buf p).length < (buf.drop p).length := by
    rw [List.length_drop]; omega
  obtain ⟨c, hc, hpc⟩ := @takeWhile_stop (fun c => c != '\n') (buf.drop p) hlt
  rw [List.getElem?_drop] at hc
  have : c = '\n' := by simpa using hpc
  rw [← this]
  exact hc

/-! ### Characterisation of the line-by-line search -/

/-- Specification of `scanLinesF`: started at a line start `off` with sufficient fuel, returns
the first line start at or after `off` whose line satisfies `pred` (scanning
the whole remaining buffer), and `none` exactly when no such line exists. -/
theorem scanLinesF_spec (pred : List Char → Bool) (buf : List Char) :
    ∀ (fuel off : Nat), buf.length - off < fuel → off ≤ buf.length →
      LineStart buf off →
      ((∀ p, scanLinesF pred fuel (buf.drop off) off = some p →
          off ≤ p ∧ LineStart buf p ∧ pred (lineAt buf p) = true ∧
          ∀ q, off ≤ q → q < p → LineStart buf q →
            pred (lineAt buf q) = false) ∧
       (scanLinesF pred fuel (buf.drop off) off = none →
          ∀ q, off ≤ q → LineStart buf q → pred (lineAt buf q) = false)) := by
  intro fuel
  induction fuel with
  | zero => intro off h; omega
  | succ fuel ih =>
    intro off hfuel hoff hls
    have hline : lineOf (buf.drop off) = lineAt buf off := rfl
    cases hpred : pred (lineAt buf off) with
    | true =>
      have hres : scanLinesF pred (fuel + 1) (buf.drop off) off = some off := by
        simp only [scanLinesF, hline, hpred, if_true]
      constructor
      · intro p hp
        rw [hres] at hp
        obtain rfl : off = p := by injection hp
        exact ⟨le_refl _, hls, hpred, fun q h1 h2 _ => absurd h2 (by omega)⟩
      · intro hnone
        rw [hres] at hnone
        exact absurd hnone (by simp)
    | false =>
      have hdrop : (buf.drop off).drop (lineAt buf off).length =
          buf.drop (off + (lineAt buf off).length) := by
        rw [List.drop_drop]
      -- characters strictly inside the first line are not line breaks
      have hinner : ∀ q, off < q → q < off + (lineAt buf off).length + 1 →
          LineStart buf q → False := by
        intro q h1 h2 hq
        rcases hq with rfl | ⟨hq0, hq⟩
        · omega
        · obtain ⟨c, hc, hne⟩ := @lineAt_inner buf off (q - 1 - off)
            (by omega)

          rw [show off + (q - 1 - off) = q - 1 by omega] at hc
          rw [hc] at hq
          exact hne (by injection hq)
      cases hrest : buf.drop (off + (lineAt buf off).length) with
      | nil =>
        have hres : scanLinesF pred (fuel + 1) (buf.drop off) off = none := by
          simp only [scanLinesF, hline, hpred, Bool.false_eq_true, if_false,
            hdrop, hrest]
        have hlen : buf.length ≤ off + (lineAt buf off).length := by
          have := congrArg List.length hrest
          rw [List.length_drop] at this
          simp at this
          omega
        constructor
        · intro p hp
          rw [hres] at hp
          exact absurd hp (by simp)
        · intro _ q hq hqs
          rcases Nat.eq_or_lt_of_le hq with rfl | hlt
          · exact hpred
          · have hqle := LineStart_le hqs
            exact absurd hqs (fun h => hinner q hlt (by omega) h)
      | cons c rest2 =>
        -- the first line ends in a line break; recurse after it
        have hlt : off + (lineAt buf off).length < buf.length := by
          have := congrArg List.length hrest
          rw [List.length_drop] at this
          simp at this
          omega
        have hnl : buf[off + (lineAt buf off).length]? = some '\n' :=
          lineAt_stop hlt
        have hrest2 : rest2 = buf.drop (off + (lineAt buf off).length + 1) := by
          have : (buf.drop (off + (lineAt buf off).length)).drop 1 =
              buf.drop (off + (lineAt buf off).length + 1) := by
            rw [List.drop_drop]
          rw [hrest] at this
          simpa using this
        have hls2 : LineStart buf (off + (lineAt buf off).length + 1) :=
          Or.inr ⟨by omega, by simpa using hnl⟩
        have hres : scanLinesF pred (fuel + 1) (buf.drop off) off =
            scanLinesF pred fuel (buf.drop (off + (lineAt buf off).length + 1))
              (off + (lineAt buf off).length + 1) := by
          simp only [scanLinesF, hline, hpred, Bool.false_eq_true, if_false,
            hdrop, hrest, hrest2]
        obtain ⟨ihsome, ihnone⟩ := ih (off + (lineAt buf off).length + 1)
          (by omega) (by omega) hls2
        constructor
        · intro p hp
          rw [hres] at hp
          obtain ⟨h1, h2, h3, h4⟩ := ihsome p hp
          refine ⟨by omega, h2, h3, ?_⟩
          intro q hq1 hq2 hqs
          rcases Nat.eq_or_lt_of_le hq1 with rfl | hlt2
          · exact hpred
          · by_cases hq3 : off + (lineAt buf off).length + 1 ≤ q
            · exact h4 q hq3 hq2 hqs
            · exact absurd hqs (fun h => hinner q hlt2 (by omega) h)
        · intro hnone q hq hqs
          rw [hres] at hnone
          rcases Nat.eq_or_lt_of_le hq with rfl | hlt2
          · exact hpred
          · by_cases hq3 : off + (lineAt buf off).length + 1 ≤ q
            · exact ihnone hnone q hq3 hqs
            · exact absurd hqs (fun h => hinner q hlt2 (by omega) h)

/-- Instantiation of `scanLinesF_spec` at the fuel and start offset used by
`find_subsection`'s first search (offset 0, whole buffer). -/
theorem scanLines_start_spec (pred : List Char → Bool) (buf : List Char) :
    (∀ p, scanLinesF pred (buf.length + 1) buf 0 = some p →
        LineStart buf p ∧ pred (lineAt buf p) = true ∧
        ∀ q, q < p → LineStart buf q → pred (lineAt buf q) = false) ∧
    (scanLinesF pred (buf.length + 1) buf 0 = none →
        ∀ q, LineStart buf q → pred (lineAt buf q) = false) := by
  have h := scanLinesF_spec pred buf (buf.length + 1) 0 (by omega) (by omega)
    (LineStart_zero buf)
  rw [List.drop_zero] at h
  exact ⟨fun p hp => by
      obtain ⟨_, h2, h3, h4⟩ := h.1 p hp
      exact ⟨h2, h3, fun q hq hqs => h4 q (by omega) hq hqs⟩,
    fun hn q hqs => h.2 hn q (by omega) hqs⟩

/-- What a successful `find_subsection` means: the matched heading line is the
first (lowest-offset) line in the whole buffer matching the heading pattern;
the body interval starts immediately after that line's line break; the heading
weight is the marker count of the matched line; and the interval ends at the
first following terminator line, or at the buffer end when there is none. -/
theorem find_subsection_some_spec {buf : List Char} {w : Nat}
    {name : List Char} {iv : Interval} {k : Nat}
    (h : find_subsection buf w name = some (iv, k)) :
    ∃ p, LineStart buf p ∧ matches_heading w name (lineAt buf p) = true ∧
      (∀ q, q < p → LineStart buf q →
        matches_heading w name (lineAt buf q) = false) ∧
      p + (lineAt buf p).length < buf.length ∧
      buf[p + (lineAt buf p).length]? = some '\n' ∧
      iv.start = p + (lineAt buf p).length + 1 ∧
      k = leadingHashes (lineAt buf p) ∧
      iv.start ≤ iv.stop ∧ iv.stop ≤ buf.length ∧
      ((LineStart buf iv.stop ∧ is_terminator k (lineAt buf iv.stop) = true ∧
        ∀ q, iv.start ≤ q → q < iv.stop → LineStart buf q →
          is_terminator k (lineAt buf q) = false) ∨
       (iv.stop = buf.length ∧
        ∀ q, iv.start ≤ q → LineStart buf q →
          is_terminator k (lineAt buf q) = false)) := by
  unfold find_subsection at h
  cases hscan : scanLinesF (matches_heading w name) (buf.length + 1) buf 0 with
  | none => rw [hscan] at h; exact absurd h (by simp)
  | some p =>
    rw [hscan] at h
    simp only at h
    obtain ⟨hp1, hp2, hp3⟩ := (scanLines_start_spec _ buf).1 p hscan
    by_cases hend : buf.length ≤ p + (lineAt buf p).length
    · rw [if_pos hend] at h
      exact absurd h (by simp)
    · rw [if_neg hend] at h
      have hlt : p + (lineAt buf p).length < buf.length := by omega
      have hnl := lineAt_stop hlt
      have hls2 : LineStart buf (p + (lineAt buf p).length + 1) :=
        Or.inr ⟨by omega, by simpa using hnl⟩
      have hspec := scanLinesF_spec (is_terminator (leadingHashes (lineAt buf p)))
        buf (buf.length + 1) (p + (lineAt buf p).length + 1) (by omega) (by omega)
        hls2
      refine ⟨p, hp1, hp2, hp3, hlt, hnl, ?_⟩
      cases hscan2 : scanLinesF (is_terminator (leadingHashes (lineAt buf p)))
          (buf.length + 1) (buf.drop (p + (lineAt buf p).length + 1))
          (p + (lineAt buf p).length + 1) with
      | some q =>
        rw [hscan2] at h
        simp only [Option.getD_some] at h
        have h' : ((⟨⟨p + (lineAt buf p).length + 1, q⟩,
            leadingHashes (lineAt buf p)⟩ : Interval × Nat)) = (iv, k) := by
          injection h
        obtain ⟨hiv, hk⟩ := Prod.mk.injEq _ _ _ _ |>.mp h'
        subst hiv
        subst hk
        obtain ⟨hq1, hq2, hq3, hq4⟩ := hspec.1 q hscan2
        refine ⟨rfl, rfl, hq1, LineStart_le hq2, Or.inl ⟨hq2, hq3, hq4⟩⟩
      | none =>
        rw [hscan2] at h
        simp only [Option.getD_none] at h
        have h' : ((⟨⟨p + (lineAt buf p).length + 1, buf.length⟩,
            leadingHashes (lineAt buf p)⟩ : Interval × Nat)) = (iv, k) := by
          injection h
        obtain ⟨hiv, hk⟩ := Prod.mk.injEq _ _ _ _ |>.mp h'
        subst hiv
        subst hk
        have hnone := hspec.2 hscan2
        exact ⟨rfl, rfl,
          show p + (lineAt buf p).length + 1 ≤ buf.length by omega, le_refl _,
          Or.inr ⟨rfl, fun q hq hqs => hnone q hq hqs⟩⟩

/-- What a failed `find_subsection` means: if any first (lowest-offset)
qualifying heading line exists at all, that line must end the buffer without a
line break (the `cursor.next_codepoint()?` failure); in particular, when no
qualifying heading exists anywhere in the buffer the search fails. -/
theorem find_subsection_none_spec {buf : List Char} {w : Nat}
    {name : List Char} (h : find_subsection buf w name = none) :
    ∀ p, LineStart buf p → matches_heading w name (lineAt buf p) = true →
      (∀ q, q < p → LineStart buf q →
        matches_heading w name (lineAt buf q) = false) →
      p + (lineAt buf p).length = buf.length := by
  intro p hp1 hp2 hp3
  unfold find_subsection at h
  cases hscan : scanLinesF (matches_heading w name) (buf.length + 1) buf 0 with
  | none =>
    have := (scanLines_start_spec _ buf).2 hscan p hp1
    rw [hp2] at this
    exact absurd this (by simp)
  | some p' =>
    rw [hscan] at h
    simp only at h
    obtain ⟨hq1, hq2, hq3⟩ := (scanLines_start_spec _ buf).1 p' hscan
    have hpp : p = p' := by
      rcases Nat.lt_trichotomy p p' with hlt | heq | hgt
      · have := hq3 p hlt hp1
        rw [hp2] at this
        exact absurd this (by simp)
      · exact heq
      · have := hp3 p' hgt hq1
        rw [hq2] at this
        exact absurd this (by simp)
    subst hpp
    by_cases hend : buf.length ≤ p + (lineAt buf p).length
    · have hle : p + (lineAt buf p).length ≤ buf.length := by
        have h1 := lineAt_length_le buf p
        have h2 := LineStart_le hp1
        omega
      omega
    · rw [if_neg hend] at h
      cases hscan2 : scanLinesF
          (is_terminator (leadingHashes (lineAt buf p))) (buf.length + 1)
          (buf.drop (p + (lineAt buf p).length + 1))
          (p + (lineAt buf p).length + 1) with
      | some q => rw [hscan2] at h; exact absurd h (by simp)
      | none => rw [hscan2] at h; exact absurd h (by simp)

/-- When no line of the buffer matches the heading pattern, the search fails. -/
theorem find_subsection_eq_none_of_no_match {buf : List Char} {w : Nat}
    {name : List Char}
    (h : ∀ q, LineStart buf q → matches_heading w name (lineAt buf q) = false) :
    find_subsection buf w name = none := by
  cases hf : find_subsection buf w name with
  | none => rfl
  | some x =>
    obtain ⟨iv, k⟩ := x
    obtain ⟨p, hp1, hp2, -⟩ := find_subsection_some_spec hf
    rw [h p hp1] at hp2
    exact absurd hp2 (by simp)

/-- The leading marker run really is a run of `#` characters. -/
theorem take_leadingHashes :
    ∀ (l : List Char), l.take (leadingHashes l) =
      List.replicate (leadingHashes l) '#' := by
  intro l
  induction l with
  | nil => simp [leadingHashes]
  | cons a t ih =>
    by_cases ha : a = '#'
    · subst ha
      simp [leadingHashes, List.replicate_succ, ih]
    · simp [leadingHashes, ha]

/-- A line matching the heading pattern decomposes as a marker run of the
line's full leading-hash count, one space, and text equal to the target name
modulo case folding. -/
theorem matches_heading_decomp {w : Nat} {name line : List Char}
    (h : matches_heading w name line = true) :
    ∃ rest, line = List.replicate (leadingHashes line) '#' ++ ' ' :: rest ∧
      w + 1 ≤ leadingHashes line ∧ lowerList rest = lowerList name := by
  simp only [matches_heading] at h
  cases hd : line.drop (leadingHashes line) with
  | nil => rw [hd] at h; exact absurd h (by simp)
  | cons c rest =>
    rw [hd] at h
    simp only [Bool.and_eq_true, beq_iff_eq, decide_eq_true_eq] at h
    obtain ⟨⟨hc, hw⟩, hn⟩ := h
    subst hc
    refine ⟨rest, ?_, hw, hn⟩
    conv_lhs => rw [← List.take_append_drop (leadingHashes line) line]
    rw [hd, take_leadingHashes]

/-- Where the backward whitespace walk of `trim_end` stops: one past the last
non-whitespace codepoint before the start position, provided such a codepoint
exists. -/
theorem scanBack_eq {buf : List Char} {i : Nat} {c : Char}
    (hc : buf[i]? = some c) (hnw : rustIsWhitespace c = false) :
    ∀ (pos : Nat), i < pos →
      (∀ j, i < j → j < pos →
        ∃ d, buf[j]? = some d ∧ rustIsWhitespace d = true) →
      scanBack buf pos = i + 1 := by
  intro pos
  induction pos with
  | zero => omega
  | succ p ih =>
    intro hlt hws
    by_cases hip : i = p
    · subst hip
      simp [scanBack, hc, hnw]
    · obtain ⟨d, hd, hdw⟩ := hws p (by omega) (by omega)
      simp only [scanBack, hd, hdw, if_true]
      exact ih (by omega) (fun j h1 h2 => hws j h1 (by omega))

@[simp] theorem to_markdown_list (s : List Char) :
    ToMarkdown.to_markdown s = s := rfl

/-- The buffer produced by `Section.append`. -/
theorem append_fst (s : Section) (buf data : List Char) :
    (s.append buf data).1 =
      buf.take s.interval.stop ++ data ++ buf.drop s.interval.stop := rfl

/-- The section produced by `Section.append`: same start, end extended by the
payload length. -/
theorem append_snd (s : Section) (buf data : List Char) :
    (s.append buf data).2 =
      ⟨s.weight, ⟨s.interval.start, s.interval.stop + data.length⟩⟩ := rfl

/-- Round trip: for a section whose interval is in bounds, the body seen
through the updated section after an append is the old body followed by the
inserted fragment. -/
theorem body_append (s : Section) (buf data : List Char)
    (h1 : s.interval.stop ≤ buf.length)
    (h2 : s.interval.start ≤ s.interval.stop) :
    ((s.append buf data).2).body (s.append buf data).1 =
      s.body buf ++ data := by
  rw [append_fst, append_snd]
  unfold Section.body
  simp only
  have hA : (buf.take s.interval.stop).length = s.interval.stop := by
    rw [List.length_take]; omega
  have hB : ((buf.take s.interval.stop).drop s.interval.start).length =
      s.interval.stop - s.interval.start := by
    rw [List.length_drop, hA]
  rw [List.append_assoc, List.drop_append_eq_append_drop,
    show s.interval.start - (buf.take s.interval.stop).length = 0 by
      rw [hA]; omega,
    List.drop_zero,
    show s.interval.stop + data.length - s.interval.start =
      ((buf.take s.interval.stop).drop s.interval.start).length + data.length by
      rw [hB]; omega,
    List.take_append, List.take_left, List.drop_take]

/-- Behaviour of `Section.trim_end` when the body has at least one trailing
whitespace codepoint preceded (anywhere in the buffer) by a non-whitespace
codepoint at offset `i`: the whitespace in `[i + 1, end - 1)` is deleted, the
codepoint originally at `end - 1` is retained, and the section's end becomes
`i + 1`. -/
theorem trim_end_spec {buf : List Char} {s : Section} {i : Nat} {c : Char}
    (hc : buf[i]? = some c) (hnw : rustIsWhitespace c = false)
    (hi : i + 2 ≤ s.interval.stop)
    (hws : ∀ j, i < j → j < s.interval.stop →
      ∃ d, buf[j]? = some d ∧ rustIsWhitespace d = true) :
    s.trim_end buf =
      some (buf.take (i + 1) ++ buf.drop (s.interval.stop - 1),
        ⟨s.weight, ⟨s.interval.start, i + 1⟩⟩) := by
  have hsb : scanBack buf s.interval.stop = i + 1 :=
    scanBack_eq hc hnw _ (by omega) hws
  unfold Section.trim_end
  rw [if_neg (by omega)]
  simp only [hsb]
  rw [if_pos (by omega)]

/-- The codepoint retained by `trim_end` sits immediately after the shrunk
body and is the one that was at `end - 1`. -/
theorem trim_end_retained {buf : List Char} {i : Nat} {stp : Nat}
    (h1 : i + 1 ≤ buf.length) :
    (buf.take (i + 1) ++ buf.drop (stp - 1))[i + 1]? = buf[stp - 1]? := by
  have hlen : (buf.take (i + 1)).length = i + 1 := by
    rw [List.length_take]; omega
  rw [List.getElem?_append_right (by omega), hlen, Nat.sub_self,
    List.getElem?_drop, Nat.add_zero]

/-! ### Claim theorems -/

/-- C1 (amended): `subsection` does not restrict its search to the parent's
range — `find_subsection` never reads the parent's interval.  The result is
independent of the parent's interval; a returned child corresponds to the
first line of the whole buffer (lowest offset anywhere, not merely within the
parent's range) matching the heading pattern for the parent's level; and when
the search returns absent, any first qualifying heading line that does exist
must be the buffer's final line, lacking a terminating line break.  For the
root section, whose range is the whole buffer, this coincides with the
claimed range-restricted search. -/
theorem subsection_scope (buf : List Char) (par : Section) (name : List Char) :
    (∀ iv : Interval,
      Section.subsection ⟨par.weight, iv⟩ buf name = par.subsection buf name) ∧
    (∀ child, par.subsection buf name = some child →
      ∃ p, LineStart buf p ∧
        matches_heading par.weight name (lineAt buf p) = true ∧
        ∀ q, q < p → LineStart buf q →
          matches_heading par.weight name (lineAt buf q) = false) ∧
    (par.subsection buf name = none →
      ∀ p, LineStart buf p → matches_heading par.weight name (lineAt buf p) = true →
        (∀ q, q < p → LineStart buf q →
          matches_heading par.weight name (lineAt buf q) = false) →
        p + (lineAt buf p).length = buf.length) := by
  refine ⟨fun iv => rfl, ?_, ?_⟩
  · intro child h
    unfold Section.subsection at h
    cases hf : find_subsection buf par.weight name with
    | none => rw [hf] at h; exact absurd h (by simp)
    | some x =>
      obtain ⟨iv, k⟩ := x
      obtain ⟨p, hp1, hp2, hp3, -⟩ := find_subsection_some_spec hf
      exact ⟨p, hp1, hp2, hp3⟩
  · intro h
    unfold Section.subsection at h
    cases hf : find_subsection buf par.weight name with
    | none => exact find_subsection_none_spec hf
    | some x => obtain ⟨iv, k⟩ := x; rw [hf] at h; exact absurd h (by simp)

/-- C1 witness: instantiating the amended claim on `doc1` at the parent scope
`## Y` (`t` resolves to a heading at offset 5, far before the parent's range
`[19, 22)`). -/
theorem subsection_scope_witness :
    ∃ p, LineStart doc1 p ∧
      matches_heading 2 (("t").toList) (lineAt doc1 p) = true ∧
      ∀ q, q < p → LineStart doc1 q →
        matches_heading 2 (("t").toList) (lineAt doc1 q) = false :=
  (subsection_scope doc1 ⟨2, ⟨19, 22⟩⟩ (("t").toList)).2.1 ⟨3, ⟨11, 14⟩⟩
    (by decide)

/-- C1 counterexample: in `doc1` the scope `## Y` (range `[19, 22)`, level 2)
contains no qualifying `t` heading, yet `subsection` returns the `### T`
section whose range `[11, 14)` lies entirely before the parent's range — the
claim's "returns absent when no qualifying heading lies within that range"
(and the restriction of the search to the parent's range) is false. -/
theorem subsection_scope_counterexample :
    (rootSection doc1).subsection doc1 (("y").toList) = some ⟨2, ⟨19, 22⟩⟩ ∧
    Section.subsection ⟨2, ⟨19, 22⟩⟩ doc1 (("t").toList) =
      some ⟨3, ⟨11, 14⟩⟩ ∧
    noQualifyingIn doc1 2 (("t").toList) 19 22 = true ∧
    14 ≤ 19 := by
  exact ⟨by decide, by decide, by decide, by decide⟩

/-- C2: a successful `subsection` matched a heading line consisting of exactly
`child.weight` markers, a space, and text equal to the requested name up to
case folding; the marker count is at least `parent.weight + 1` (a heading at a
level equal to or shallower than the parent's is never the match), the child's
level is the matched line's actual marker count (only the lower bound is
enforced, so it may exceed `parent.weight + 1`), and every earlier line start
fails the match pattern. -/
theorem subsection_match_condition (buf : List Char) (par : Section)
    (name : List Char) (child : Section)
    (h : par.subsection buf name = some child) :
    par.weight + 1 ≤ child.weight ∧
    ∃ p rest, LineStart buf p ∧
      lineAt buf p = List.replicate child.weight '#' ++ ' ' :: rest ∧
      lowerList rest = lowerList name ∧
      child.weight = leadingHashes (lineAt buf p) ∧
      ∀ q, q < p → LineStart buf q →
        matches_heading par.weight name (lineAt buf q) = false := by
  unfold Section.subsection at h
  cases hf : find_subsection buf par.weight name with
  | none => rw [hf] at h; exact absurd h (by simp)
  | some x =>
    obtain ⟨iv, k⟩ := x
    rw [hf] at h
    have hchild : child = ⟨k, iv⟩ := by
      injection h with h'
      exact h'.symm
    subst hchild
    obtain ⟨p, hp1, hp2, hp3, -, -, -, hk, -⟩ := find_subsection_some_spec hf
    obtain ⟨rest, hdec, hw, hname⟩ := matches_heading_decomp hp2
    rw [← hk] at hdec hw
    exact ⟨hw, p, rest, hp1, hdec, hname, hk, hp3⟩

/-- C2 witness: in `docW` the name `deep` (requested lower-case) resolves from
the level-0 root to the `#### Deep` heading of actual marker count 4, which
exceeds the enforced lower bound `0 + 1`. -/
theorem subsection_match_condition_witness :
    (rootSection docW).subsection docW (("deep").toList) =
      some ⟨4, ⟨10, 15⟩⟩ ∧
    (0 + 1 ≤ 4 ∧
      ∃ p rest, LineStart docW p ∧
        lineAt docW p = List.replicate 4 '#' ++ ' ' :: rest ∧
        lowerList rest = lowerList (("deep").toList) ∧
        4 = leadingHashes (lineAt docW p) ∧
        ∀ q, q < p → LineStart docW q →
          matches_heading 0 (("deep").toList) (lineAt docW q) = false) ∧
    0 + 1 < 4 :=
  ⟨by decide,
    subsection_match_condition docW (rootSection docW) (("deep").toList)
      ⟨4, ⟨10, 15⟩⟩ (by decide),
    by decide⟩

/-- C3 (amended): a resolved child's body starts immediately after the matched
heading line's line break and ends immediately before the first following line
that is a heading with marker count between 1 and the child's level inclusive,
or at the buffer's end if no such line exists.  In the document
`# A\n\n## B\ntext b\n\n## C\ntext c\n` the heading's terminating line break
is skipped, so resolving `B` under root yields body `"text b\n\n"` and
resolving `C` under root yields body `"text c\n"` — not the claimed
`"\ntext b\n\n"` / `"\ntext c\n"`. -/
theorem subsection_body_boundaries :
    (∀ (buf : List Char) (par : Section) (name : List Char) child,
      par.subsection buf name = some child →
      (∃ p, LineStart buf p ∧
        matches_heading par.weight name (lineAt buf p) = true ∧
        child.interval.start = p + (lineAt buf p).length + 1 ∧
        buf[p + (lineAt buf p).length]? = some '\n') ∧
      child.interval.start ≤ child.interval.stop ∧
      child.interval.stop ≤ buf.length ∧
      ((LineStart buf child.interval.stop ∧
        is_terminator child.weight (lineAt buf child.interval.stop) = true ∧
        ∀ q, child.interval.start ≤ q → q < child.interval.stop →
          LineStart buf q →
          is_terminator child.weight (lineAt buf q) = false) ∨
       (child.interval.stop = buf.length ∧
        ∀ q, child.interval.start ≤ q → LineStart buf q →
          is_terminator child.weight (lineAt buf q) = false))) ∧
    Note.body specDoc (some (("b").toList)) =
      Except.ok (("text b\n\n").toList) ∧
    Note.body specDoc (some (("c").toList)) =
      Except.ok (("text c\n").toList) := by
  refine ⟨?_, by decide, by decide⟩
  intro buf par name child h
  unfold Section.subsection at h
  cases hf : find_subsection buf par.weight name with
  | none => rw [hf] at h; exact absurd h (by simp)
  | some x =>
    obtain ⟨iv, k⟩ := x
    rw [hf] at h
    have hchild : child = ⟨k, iv⟩ := by
      injection h with h'
      exact h'.symm
    subst hchild
    obtain ⟨p, hp1, hp2, -, -, hnl, hstart, hk, hle1, hle2, hterm⟩ :=
      find_subsection_some_spec hf
    subst hk
    exact ⟨⟨p, hp1, hp2, hstart, hnl⟩, hle1, hle2, hterm⟩

/-- C3 witness: the amended claim applied to the resolution of `B` in the
scenario document (its range `[10, 18)` is in bounds). -/
theorem subsection_body_boundaries_witness :
    10 ≤ 18 ∧ 18 ≤ specDoc.length :=
  have h := subsection_body_boundaries.1 specDoc (rootSection specDoc)
    (("b").toList) ⟨2, ⟨10, 18⟩⟩ (by decide)
  ⟨h.2.1, h.2.2.1⟩

/-- C3 counterexample: resolving `B` under the root of the scenario document
yields body `"text b\n\n"`, which differs from the claimed `"\ntext b\n\n"`
(the body does not include the heading line's own line break). -/
theorem subsection_body_scenario_counterexample :
    Note.body specDoc (some (("b").toList)) =
      Except.ok (("text b\n\n").toList) ∧
    ("text b\n\n").toList ≠ ("\ntext b\n\n").toList := by
  exact ⟨by decide, by decide⟩

/-- C4 (amended): `trim_end` scans backward from `range.end` over whitespace
to the first non-whitespace codepoint (at offset `i`), deletes the whitespace
strictly between there and the codepoint boundary immediately preceding
`range.end`, deliberately retaining exactly one trailing whitespace codepoint
in the buffer — the codepoint that immediately preceded `range.end`, which is
a line break precisely when the body ended with one (as in the scenario, and
in general for bodies delimited by a following heading) — and updates
`range.end` to the shrunk body: trimming the section of `doc4` whose body is
`"\ntext c\n\n"` yields body `"\ntext c"`. -/
theorem trim_end_retains_whitespace :
    (∀ (buf : List Char) (s : Section) (i : Nat) (c : Char),
      buf[i]? = some c → rustIsWhitespace c = false →
      i + 2 ≤ s.interval.stop → s.interval.stop ≤ buf.length →
      (∀ j, j < s.interval.stop → i < j →
        ∃ d, buf[j]? = some d ∧ rustIsWhitespace d = true) →
      s.trim_end buf =
        some (buf.take (i + 1) ++ buf.drop (s.interval.stop - 1),
          ⟨s.weight, ⟨s.interval.start, i + 1⟩⟩) ∧
      (buf.take (i + 1) ++ buf.drop (s.interval.stop - 1))[i + 1]? =
        buf[s.interval.stop - 1]? ∧
      Option.any rustIsWhitespace
        ((buf.take (i + 1) ++ buf.drop (s.interval.stop - 1))[i + 1]?) =
        true) ∧
    (rootSection doc4).subsection doc4 (("c").toList) = some ⟨2, ⟨5, 14⟩⟩ ∧
    Section.body ⟨2, ⟨5, 14⟩⟩ doc4 = ("\ntext c\n\n").toList ∧
    Section.trim_end ⟨2, ⟨5, 14⟩⟩ doc4 =
      some (("## C\n\ntext c\n").toList, ⟨2, ⟨5, 12⟩⟩) ∧
    Section.body ⟨2, ⟨5, 12⟩⟩ (("## C\n\ntext c\n").toList) =
      ("\ntext c").toList := by
  refine ⟨?_, by decide, by decide, by decide, by decide⟩
  intro buf s i c hc hnw hi hstop hws
  have hres := trim_end_spec hc hnw hi (fun j h1 h2 => hws j h2 h1)
  have hret := @trim_end_retained buf i s.interval.stop (by omega)
  obtain ⟨d, hd, hdw⟩ := hws (s.interval.stop - 1) (by omega) (by omega)
  refine ⟨hres, hret, ?_⟩
  rw [hret, hd]
  simpa using hdw

/-- C4 witness: the amended claim applied to the section of `doc4` (last
non-whitespace codepoint `c` at offset 11, two trailing whitespace
codepoints). -/
theorem trim_end_retains_whitespace_witness :
    Section.trim_end ⟨2, ⟨5, 14⟩⟩ doc4 =
      some (doc4.take 12 ++ doc4.drop 13, ⟨2, ⟨5, 12⟩⟩) ∧
    (doc4.take 12 ++ doc4.drop 13)[12]? = doc4[13]? ∧
    Option.any rustIsWhitespace ((doc4.take 12 ++ doc4.drop 13)[12]?) = true :=
  trim_end_retains_whitespace.1 doc4 ⟨2, ⟨5, 14⟩⟩ 11 'c' (by decide)
    (by decide) (by decide) (by decide) (by decide)

/-- C4 counterexample: trimming the root section of `"ab  "` (a note with no
line break at all) deletes one trailing space and retains the other — the
retained trailing codepoint is a space, and no line break is retained in the
buffer, contradicting "retaining exactly one trailing line break". -/
theorem trim_end_line_break_counterexample :
    Note.trim_end (("ab  ").toList) none =
      some (Except.ok (), ("ab ").toList) ∧
    ("ab  ").toList ≠ ("ab ").toList ∧
    (("ab ").toList).contains '\n' = false := by
  exact ⟨by decide, by decide, by decide⟩

/-- C5 (code bug): `trim_end` is not idempotent and a call on a body with no
trailing whitespace is not a no-op.  After one trim the section's body ends in
a non-whitespace codepoint, so the second call computes the inverted removal
interval `end..end - 1`; xi-rope's `Interval::new` rejects it
(`debug_assert!(start <= end)`; in release builds the edit would instead
duplicate the codepoint at `end - 1`).  The abort is modelled as `none`.  The
same happens on the very first call when the body already lacks trailing
whitespace (`"## C\nabc"`).  Even in the benign single-newline case the call
is not a no-op: it shrinks `range.end` by one. -/
theorem trim_end_not_idempotent :
    (rootSection doc4).subsection doc4 (("c").toList) = some ⟨2, ⟨5, 14⟩⟩ ∧
    Section.trim_end ⟨2, ⟨5, 14⟩⟩ doc4 =
      some (("## C\n\ntext c\n").toList, ⟨2, ⟨5, 12⟩⟩) ∧
    Section.trim_end ⟨2, ⟨5, 12⟩⟩ (("## C\n\ntext c\n").toList) = none ∧
    Note.trim_end (("## C\nabc").toList) (some (("c").toList)) = none := by
  exact ⟨by decide, by decide, by decide, by decide⟩

/-- C6 (code bug): on the section of `doc6` whose body `"\n\n"` is entirely
whitespace, the backward scan runs past `range.start` to the heading text,
the edit deletes the heading line's terminating line break (which lies outside
the section), and the resulting section has `range.end = 4 < 5 = range.start`:
an inverted (negative) range, violating the invariant
`range.start <= range.end <= buffer.len()`. -/
theorem trim_end_invariant_violation :
    (rootSection doc6).subsection doc6 (("c").toList) = some ⟨2, ⟨5, 7⟩⟩ ∧
    Section.trim_end ⟨2, ⟨5, 7⟩⟩ doc6 =
      some (("## C\n").toList, ⟨2, ⟨5, 4⟩⟩) ∧
    (Section.mk 2 ⟨5, 4⟩).interval.stop <
      (Section.mk 2 ⟨5, 4⟩).interval.start := by
  exact ⟨by decide, by decide, by decide⟩

/-- C7 (amended): `append` inserts the rendered fragment exactly at
`range.end`, extends `range.end` by the inserted length, and the body seen
immediately afterwards is the previous body followed by the rendered payload.
In the scenario document, section `C` has body `"text c\n"`, so appending
`"bing bong"` yields body `"text c\nbing bong"` — not the claimed
`"\ntext c\n\nbing bong"`. -/
theorem append_round_trip :
    (∀ (buf data : List Char) (s : Section),
      s.interval.stop ≤ buf.length → s.interval.start ≤ s.interval.stop →
      (s.append buf data).1 =
        buf.take s.interval.stop ++ data ++ buf.drop s.interval.stop ∧
      (s.append buf data).2.interval.start = s.interval.start ∧
      (s.append buf data).2.interval.stop = s.interval.stop + data.length ∧
      ((s.append buf data).2).body (s.append buf data).1 =
        s.body buf ++ data) ∧
    (rootSection specDoc).subsection specDoc (("c").toList) =
      some ⟨2, ⟨23, 30⟩⟩ ∧
    Section.body ⟨2, ⟨23, 30⟩⟩ specDoc = ("text c\n").toList ∧
    (Section.append ⟨2, ⟨23, 30⟩⟩ specDoc (("bing bong").toList)).2.body
        (Section.append ⟨2, ⟨23, 30⟩⟩ specDoc (("bing bong").toList)).1 =
      ("text c\nbing bong").toList := by
  refine ⟨?_, by decide, by decide, by decide⟩
  intro buf data s h1 h2
  exact ⟨append_fst s buf data, rfl, rfl, body_append s buf data h1 h2⟩

/-- C7 witness: the amended claim applied to appending `"bing bong"` to
section `C` of the scenario document. -/
theorem append_round_trip_witness :
    (Section.append ⟨2, ⟨23, 30⟩⟩ specDoc
        (("bing bong").toList)).2.interval.stop = 39 ∧
    (Section.append ⟨2, ⟨23, 30⟩⟩ specDoc (("bing bong").toList)).2.body
        (Section.append ⟨2, ⟨23, 30⟩⟩ specDoc (("bing bong").toList)).1 =
      Section.body ⟨2, ⟨23, 30⟩⟩ specDoc ++ ("bing bong").toList :=
  have h := append_round_trip.1 specDoc (("bing bong").toList) ⟨2, ⟨23, 30⟩⟩
    (by decide) (by decide)
  ⟨h.2.2.1, h.2.2.2⟩

/-- C7 counterexample: appending `"bing bong"` to section `C` of the scenario
document yields body `"text c\nbing bong"`, not the claimed
`"\ntext c\n\nbing bong"`. -/
theorem append_scenario_counterexample :
    (Section.append ⟨2, ⟨23, 30⟩⟩ specDoc (("bing bong").toList)).2.body
        (Section.append ⟨2, ⟨23, 30⟩⟩ specDoc (("bing bong").toList)).1 =
      ("text c\nbing bong").toList ∧
    (rootSection specDoc).subsection specDoc (("c").toList) =
      some ⟨2, ⟨23, 30⟩⟩ ∧
    ("text c\nbing bong").toList ≠ ("\ntext c\n\nbing bong").toList := by
  exact ⟨by decide, by decide, by decide⟩

/-- C8: for a document with no line matching the heading pattern for a name,
Section-level resolution returns absence (`none` — an `Option`, not an
error), while the Note convenience operations called with that name fail with
`SectionNotFound` carrying the requested name; called with no name they
resolve the root and never produce a `SectionNotFound` error. -/
theorem note_section_not_found (buf name data : List Char)
    (h : ∀ q, q ≤ buf.length → LineStart buf q →
      matches_heading 0 name (lineAt buf q) = false) :
    (rootSection buf).subsection buf name = none ∧
    Note.body buf (some name) =
      Except.error (NoteError.sectionNotFound name) ∧
    Note.append buf data (some name) =
      (Except.error (NoteError.sectionNotFound name), buf) ∧
    Note.trim_end buf (some name) =
      some (Except.error (NoteError.sectionNotFound name), buf) ∧
    Note.body buf none = Except.ok ((rootSection buf).body buf) ∧
    Note.append buf data none =
      (Except.ok (), ((rootSection buf).append buf data).1) ∧
    (∀ e r, Note.trim_end buf none ≠ some (Except.error e, r)) := by
  have hall : ∀ q, LineStart buf q →
      matches_heading 0 name (lineAt buf q) = false :=
    fun q hq => h q (LineStart_le hq) hq
  have hnone : find_subsection buf 0 name = none :=
    find_subsection_eq_none_of_no_match hall
  have hsub : (rootSection buf).subsection buf name = none := by
    unfold Section.subsection
    rw [show (rootSection buf).weight = 0 from rfl, hnone]
  have hns : noteSection buf (some name) = none := hsub
  refine ⟨hsub, ?_, ?_, ?_, rfl, rfl, ?_⟩
  · unfold Note.body
    rw [hns]
    rfl
  · unfold Note.append
    rw [hns]
    rfl
  · unfold Note.trim_end
    rw [hns]
    rfl
  · intro e r
    unfold Note.trim_end
    show (match noteSection buf none with
      | some s => match s.trim_end buf with
        | some (buf2, _) => some (Except.ok (), buf2)
        | none => none
      | none => some (Except.error (NoteError.sectionNotFound
          ((none : Option (List Char)).getD [])), buf)) ≠
      some (Except.error e, r)
    show (match (rootSection buf).trim_end buf with
      | some (buf2, _) => some (Except.ok (), buf2)
      | none => none) ≠ some (Except.error e, r)
    cases htr : (rootSection buf).trim_end buf with
    | some x => obtain ⟨b2, s2⟩ := x; simp
    | none => simp

/-- C8 witness: the claim applied to the document `"# A\nhello\n"` and the
absent name `zzz`. -/
theorem note_section_not_found_witness :
    (rootSection (("# A\nhello\n").toList)).subsection
      (("# A\nhello\n").toList) (("zzz").toList) = none ∧
    Note.body (("# A\nhello\n").toList) (some (("zzz").toList)) =
      Except.error (NoteError.sectionNotFound (("zzz").toList)) ∧
    Note.trim_end (("# A\nhello\n").toList) (some (("zzz").toList)) =
      some (Except.error (NoteError.sectionNotFound (("zzz").toList)),
        ("# A\nhello\n").toList) :=
  have h := note_section_not_found (("# A\nhello\n").toList)
    (("zzz").toList) (("x").toList) (by decide)
  ⟨h.1, h.2.1, h.2.2.2.1⟩

/-- C9: primitive text values render as themselves unchanged (the `String` and
`&str` impls of `ToMarkdown` are the identity), so the literal fragment
inserted by `append` for a plain-text payload is the payload itself, placed
verbatim at the section's old `range.end`. -/
theorem to_markdown_text_identity (s buf : List Char) (sec : Section)
    (h : sec.interval.stop ≤ buf.length) :
    ToMarkdown.to_markdown s = s ∧
    (sec.append buf s).1 =
      buf.take sec.interval.stop ++ s ++ buf.drop sec.interval.stop ∧
    ((sec.append buf s).1.drop sec.interval.stop).take s.length = s := by
  refine ⟨rfl, rfl, ?_⟩
  have h1 : (buf.take sec.interval.stop).drop sec.interval.stop = [] := by
    rw [List.drop_take, Nat.sub_self, List.take_zero]
  rw [append_fst, List.append_assoc, List.drop_append_eq_append_drop, h1,
    show sec.interval.stop - (buf.take sec.interval.stop).length = 0 by
      rw [List.length_take]; omega,
    List.drop_zero, List.nil_append, List.take_left]

/-- C9 witness: rendering and appending the text `"hi"` at the end of the
root section of `doc4`. -/
theorem to_markdown_text_identity_witness :
    ToMarkdown.to_markdown (("hi").toList) = ("hi").toList ∧
    ((rootSection doc4).append doc4 (("hi").toList)).1 =
      doc4.take 14 ++ ("hi").toList ++ doc4.drop 14 ∧
    (((rootSection doc4).append doc4 (("hi").toList)).1.drop 14).take 2 =
      ("hi").toList :=
  to_markdown_text_identity (("hi").toList) doc4 (rootSection doc4)
    (by decide)

/-- C10: when resolution of an explicitly requested name fails, `Note::append`
and `Note::trim_end` return the `SectionNotFound` error carrying that name
with the buffer exactly unchanged — no partial mutation occurs on the error
path. -/
theorem note_error_atomicity (buf name data : List Char)
    (h : (rootSection buf).subsection buf name = none) :
    Note.append buf data (some name) =
      (Except.error (NoteError.sectionNotFound name), buf) ∧
    Note.trim_end buf (some name) =
      some (Except.error (NoteError.sectionNotFound name), buf) := by
  have hns : noteSection buf (some name) = none := h
  constructor
  · unfold Note.append
    rw [hns]
    rfl
  · unfold Note.trim_end
    rw [hns]
    rfl

/-- C10 witness: the absent name `zzz` on `doc4`: both operations report
`SectionNotFound "zzz"` and return the untouched buffer. -/
theorem note_error_atomicity_witness :
    Note.append doc4 (("x").toList) (some (("zzz").toList)) =
      (Except.error (NoteError.sectionNotFound (("zzz").toList)), doc4) ∧
    Note.trim_end doc4 (some (("zzz").toList)) =
      some (Except.error (NoteError.sectionNotFound (("zzz").toList)), doc4) :=
  note_error_atomicity doc4 (("zzz").toList) (("x").toList) (by decide)

end Obsidian
